import Mathlib

/-!
Verification development for `sgc_bin_calendar.py` (the active program in the
file; an older, fully commented-out variant at the top of the file is dead
code and is not modelled).

Calendar dates are modelled as proleptic Gregorian ordinals (`Nat`, with
0001-01-01 = 1), exactly as Python's `date.toordinal`.  Date comparison and
`timedelta(days = n)` arithmetic on `date` coincide with `Nat` comparison and
addition on ordinals.  Python strings are Lean `String`s; `str.lower` is
modelled by `String.toLower` (the service names and patterns involved are
ASCII, where the two agree).  A record field that may be absent is an
`Option`; Python's truthiness test on a string field treats both absence and
the empty string as false.  Exceptions are modelled with `Except String`.
-/

set_option autoImplicit false

namespace SGC

/-! ### Proleptic Gregorian calendar, as in CPython's `datetime` module -/

def isLeapYear (y : Nat) : Bool :=
  y % 4 == 0 && (y % 100 != 0 || y % 400 == 0)

def daysInMonth (y m : Nat) : Nat :=
  if m = 2 then (if isLeapYear y then 29 else 28)
  else if m = 4 ∨ m = 6 ∨ m = 9 ∨ m = 11 then 30
  else 31

def daysBeforeYear (y : Nat) : Nat :=
  let n := y - 1
  365 * n + n / 4 - n / 100 + n / 400

def daysBeforeMonth (y m : Nat) : Nat :=
  ((List.range' 1 (m - 1)).map (daysInMonth y)).sum

/-- Ordinal of the date `y-m-d` (Python `date(y, m, d).toordinal()`). -/
def toOrdinal (y m d : Nat) : Nat :=
  daysBeforeYear y + daysBeforeMonth y m + d

/-- Walk through the months of year `y` to convert a 0-based day-of-year
`doy` into a (month, day) pair.  The first argument counts the months
still to be tried before December; when it reaches 0 the month is 12 and
the remaining days fall inside it (any `doy < 365` leaves at most 30 days
after November), so the structural recursion is exact. -/
def splitDoy (y : Nat) : Nat → Nat → Nat → Nat × Nat
  | 0, m, doy => (m, doy + 1)
  | monthsLeft + 1, m, doy =>
      let dim := daysInMonth y m
      if doy < dim then (m, doy + 1)
      else splitDoy y monthsLeft (m + 1) (doy - dim)

/-- Inverse of `toOrdinal` (CPython's `_ord2ymd`). -/
def fromOrdinal (n : Nat) : Nat × Nat × Nat :=
  let n0 := n - 1
  let n400 := n0 / 146097
  let r400 := n0 % 146097
  let n100 := r400 / 36524
  let r100 := r400 % 36524
  let n4 := r100 / 1461
  let r4 := r100 % 1461
  let n1 := r4 / 365
  let r1 := r4 % 365
  let year := n400 * 400 + n100 * 100 + n4 * 4 + n1 + 1
  if n1 = 4 ∨ n100 = 4 then (year - 1, 12, 31)
  else
    let md := splitDoy year 11 1 r1
    (year, md.1, md.2)

def padZero (w n : Nat) : String :=
  let s := toString n
  String.mk (List.replicate (w - s.length) '0') ++ s

/-- Python `date.fromordinal(ord).isoformat()`: the `YYYY-MM-DD` string. -/
def isoformat (ord : Nat) : String :=
  let ymd := fromOrdinal ord
  padZero 4 ymd.1 ++ "-" ++ padZero 2 ymd.2.1 ++ "-" ++ padZero 2 ymd.2.2

def digitVal (c : Char) : Nat := c.toNat - '0'.toNat

/-- Python `datetime.fromisoformat(s).date()` as used on API date strings
such as "2026-02-23T00:00:00+00:00": parse the leading `YYYY-MM-DD`,
validate it as a calendar date, drop any time-of-day part (which must be
introduced by 'T' or ' '; the time digits themselves are not re-validated
here — no claim depends on a malformed time part).  `none` models the
`ValueError` that `fromisoformat` raises. -/
def fromisoformatDate (s : String) : Option Nat :=
  match s.toList with
  | y1 :: y2 :: y3 :: y4 :: c1 :: m1 :: m2 :: c2 :: d1 :: d2 :: rest =>
      if y1.isDigit && y2.isDigit && y3.isDigit && y4.isDigit &&
          m1.isDigit && m2.isDigit && d1.isDigit && d2.isDigit &&
          c1 == '-' && c2 == '-' &&
          (rest.isEmpty || rest.head? == some 'T' || rest.head? == some ' ') then
        let y := 1000 * digitVal y1 + 100 * digitVal y2 + 10 * digitVal y3 + digitVal y4
        let m := 10 * digitVal m1 + digitVal m2
        let d := 10 * digitVal d1 + digitVal d2
        if 1 ≤ y && 1 ≤ m && m ≤ 12 && 1 ≤ d && d ≤ daysInMonth y m then
          some (toOrdinal y m d)
        else none
      else none
  | _ => none

/-! ### Substring search (Python's `pat in s`) and `str.lower` -/

/-- Python `s.lower()` (the strings matched here are ASCII, where
`Char.toLower` and Python's case folding agree). -/
def strLower (s : String) : String :=
  String.mk (s.data.map Char.toLower)

/-- Whether `pat` occurs at the start of `hay` (on character lists). -/
def startsWith : List Char → List Char → Bool
  | [], _ => true
  | _ :: _, [] => false
  | a :: pat, b :: hay => a == b && startsWith pat hay

/-- Whether `pat` occurs somewhere inside `hay` (Python `pat in hay`). -/
def hasSub : List Char → List Char → Bool
  | pat, [] => startsWith pat []
  | pat, c :: hay => startsWith pat (c :: hay) || hasSub pat hay

/-- Python `pat in s` for strings. -/
def strContains (s pat : String) : Bool :=
  hasSub pat.toList s.toList

/-! ### The data model of `sgc_bin_calendar.py` -/

/-- A raw JSON record of the API's `value` list, with the fields the
program reads; an absent field is `none`. -/
structure RawItem where
  hso_servicename : Option String
  hso_nextcollection : Option String
  hso_scheduledescription : Option String
  hso_round : Option String
deriving DecidableEq

/-- The `SERVICE_LABELS` dict (source lines 181-186). -/
def SERVICE_LABELS : List (String × String) :=
  [("Recycling", "♻️ Recycling collection"),
   ("Refuse", "🗑️ Refuse (black bin) collection"),
   ("Food", "🍎 Food waste collection"),
   ("Garden", "🌿 Garden waste collection")]

/-- `SERVICE_LABELS.get(service, f"🗑️ {service} collection")` (line 220). -/
def serviceLabel (service : String) : String :=
  (SERVICE_LABELS.lookup service).getD ("🗑️ " ++ service ++ " collection")

def REMINDER_HOURS_BEFORE : Nat := 12

/-- The recurrence-interval inference (source lines 222-229). -/
def inferIntervalDays (schedule : String) : Option Nat :=
  if strContains (strLower schedule) "every other week" then some 14
  else if strContains (strLower schedule) "every week" then some 7
  else none

/-- One emitted VEVENT, with the fields the program sets, plus the
`service` name of the record it came from (the spec's
`CalendarEventDescriptor.service_name`, which at the emission site is the
first component of the dedup key). -/
structure Event where
  service : String
  summary : String
  dtstart : Nat
  dtend : Nat
  description : String
  uid : String
  dtstamp : Nat
  alarmAction : String
  alarmDescription : String
  alarmTriggerHours : Int
deriving DecidableEq

/-- Dedup key: `(service, current_date)` (source line 237). -/
abbrev DKey := String × Nat

def ekey (e : Event) : DKey := (e.service, e.dtstart)

/-- The per-record loop context: the values that stay fixed across the
iterations of the `while` loop of lines 236-263. -/
structure Ctx where
  service : String
  label : String
  schedule : String
  round : String
  intervalDays : Option Nat
  endDate : Nat
  now : Nat
deriving DecidableEq

/-- The event built at lines 240-256 for occurrence date `current`. -/
def mkEvent (c : Ctx) (current : Nat) : Event :=
  { service := c.service
    summary := c.label
    dtstart := current
    dtend := current + 1
    description := "Schedule: " ++ c.schedule ++ "\nRound: " ++ c.round
    uid := strLower c.service ++ "-" ++ isoformat current ++ "@southglos-bins"
    dtstamp := c.now
    alarmAction := "DISPLAY"
    alarmDescription := "Tomorrow: " ++ c.label
    alarmTriggerHours := -(24 - (REMINDER_HOURS_BEFORE : Int)) }

/-- The `while current_date <= end_date` loop (lines 236-263), with the
dedup `seen` set threaded through.  `fuel` bounds the iteration count; the
program only ever runs the loop with `intervalDays` equal to `some 7`,
`some 14` or `none`, for which the fuel supplied at the call site is ample
(the loop body runs at most `26 + 2` times). -/
def projectEvents (c : Ctx) : Nat → Nat → List DKey → List Event × List DKey
  | 0, _, seen => ([], seen)
  | fuel + 1, current, seen =>
    if current ≤ c.endDate then
      let step :=
        if (c.service, current) ∈ seen then ([], seen)
        else ([mkEvent c current], (c.service, current) :: seen)
      match c.intervalDays with
      | some i =>
          let next := projectEvents c fuel (current + i) step.2
          (step.1 ++ next.1, next.2)
      | none => step
    else ([], seen)

/-- The loop context a record gives rise to once its date has parsed to
`nextDate` (source lines 212-234): the defaulted field reads, the label
lookup, the inferred interval, and `end_date = next_date + 26 weeks`. -/
def itemCtx (item : RawItem) (now nextDate : Nat) : Ctx :=
  { service := item.hso_servicename.getD "Unknown"
    label := serviceLabel (item.hso_servicename.getD "Unknown")
    schedule := item.hso_scheduledescription.getD ""
    round := item.hso_round.getD ""
    intervalDays := inferIntervalDays (item.hso_scheduledescription.getD "")
    endDate := nextDate + 7 * 26
    now := now }

/-- One iteration of the `for item in collections` loop (lines 211-263).
A date present but unparseable raises `ValueError` out of
`build_calendar`; this is the `.error` case. -/
def processItem (now : Nat) (seen : List DKey) (item : RawItem) :
    Except String (List Event × List DKey) :=
  match item.hso_nextcollection with
  | none => .ok ([], seen)
  | some s =>
      if s = "" then .ok ([], seen)
      else
        match fromisoformatDate s with
        | none => .error ("Invalid isoformat string: " ++ s)
        | some nextDate =>
            .ok (projectEvents (itemCtx item now nextDate) (7 * 26 + 2) nextDate seen)

/-- The record loop of `build_calendar`, accumulating emitted events in
order and threading the single `seen` set across all records. -/
def buildCalendar (now : Nat) : List RawItem → List DKey →
    Except String (List Event × List DKey)
  | [], seen => .ok ([], seen)
  | item :: rest, seen =>
      match processItem now seen item with
      | .error e => .error e
      | .ok (es, seen') =>
          match buildCalendar now rest seen' with
          | .error e => .error e
          | .ok (es', seen'') => .ok (es ++ es', seen'')

/-- The rendered calendar: the fixed header properties added at lines
198-205 and the event components in the order they were added. -/
structure Calendar where
  prodid : String
  version : String
  calscale : String
  xwrCalname : String
  xwrTimezone : String
  refreshInterval : String
  xPublishedTtl : String
  events : List Event
deriving DecidableEq

/-- `build_calendar(collections)` (lines 197-265); `now` is the wall-clock
value `datetime.now(timezone.utc)` reads during the run. -/
def build_calendar (collections : List RawItem) (now : Nat) :
    Except String Calendar :=
  match buildCalendar now collections [] with
  | .error e => .error e
  | .ok (es, _) =>
      .ok { prodid := "-//South Glos Bin Collections//EN"
            version := "2.0"
            calscale := "GREGORIAN"
            xwrCalname := "South Glos Bin Collections"
            xwrTimezone := "Europe/London"
            refreshInterval := "P1D"
            xPublishedTtl := "P1D"
            events := es }

/-- The events of a run's result; an aborted run produced none. -/
def eventsOf (r : Except String Calendar) : List Event :=
  match r with
  | .ok cal => cal.events
  | .error _ => []

/-! ### The fetch collaborator and `main` -/

/-- An HTTP response as the program observes it: the status code and the
parsed JSON body (which `main` iterates as a list of records). -/
structure HttpResponse where
  status : Nat
  json : List RawItem

/-- `API_URL` (line 177): the fixed endpoint with the uprn interpolated. -/
def API_URL (uprn : String) : String :=
  "https://api.southglos.gov.uk/wastecomp/GetCollectionDetails?uprn=" ++ uprn

/-- `fetch_collections` (lines 191-194).  The HTTP layer is the oracle
`http` from URL to response; `raise_for_status` raises exactly on a 4xx/5xx
status.  Note there is no check that the result is non-empty. -/
def fetch_collections (http : String → HttpResponse) (uprn : String) :
    Except String (List RawItem) :=
  let response := http (API_URL uprn)
  if 400 ≤ response.status then
    .error ("HTTP error " ++ toString response.status)
  else .ok response.json

/-- `main` (lines 268-277) up to the file write: an `.ok` result is the
calendar whose bytes are written to the output file; `.error` is an
uncaught exception aborting the run with no output.  Note there is no
check that `uprn` is non-empty before the request is issued. -/
def main (uprn : String) (http : String → HttpResponse) (now : Nat) :
    Except String Calendar :=
  match fetch_collections http uprn with
  | .error e => .error e
  | .ok collections => build_calendar collections now

/-! ### Concrete records used in the closed evaluations -/

def itemFood : RawItem := ⟨some "Food", some "2026-02-23", none, none⟩

def itemRecycling : RawItem :=
  ⟨some "Recycling", some "2026-02-23", some "Monday every other week",
   some "R1"⟩

def itemBadDate : RawItem := ⟨some "Refuse", some "not-a-date", none, none⟩

def itemNoDate : RawItem := ⟨some "Garden", none, none, some "R2"⟩

def itemTextiles : RawItem := ⟨some "Textiles", some "2026-02-23", none, none⟩

def itemTextilesLower : RawItem :=
  ⟨some "textiles", some "2026-02-23", none, none⟩

def itemRefuse : RawItem := ⟨some "Refuse", some "2026-02-23", none, none⟩

def itemREFUSE : RawItem := ⟨some "REFUSE", some "2026-02-23", none, none⟩

def d20260223 : Nat := toOrdinal 2026 2 23

/-! ### Invariants of the projection loop -/

lemma projectEvents_out (c : Ctx) (fuel current : Nat) (seen : List DKey)
    (h : ¬ current ≤ c.endDate) :
    projectEvents c fuel current seen = ([], seen) := by
  cases fuel with
  | zero => rfl
  | succ fuel => simp [projectEvents, h]

lemma ekey_mkEvent (c : Ctx) (d : Nat) : ekey (mkEvent c d) = (c.service, d) := rfl

/-- The joint loop invariant of the `seen` set: `seen` only grows, every
emitted event's `(service, date)` key is fresh relative to the incoming
`seen`, lands in the outgoing `seen`, and the emitted keys are pairwise
distinct. -/
lemma projectEvents_inv (c : Ctx) :
    ∀ (fuel current : Nat) (seen : List DKey),
      (∀ k, k ∈ seen → k ∈ (projectEvents c fuel current seen).2) ∧
      (∀ e, e ∈ (projectEvents c fuel current seen).1 →
        ekey e ∈ (projectEvents c fuel current seen).2) ∧
      (∀ e, e ∈ (projectEvents c fuel current seen).1 → ekey e ∉ seen) ∧
      List.Pairwise (fun a b => ekey a ≠ ekey b)
        (projectEvents c fuel current seen).1 := by
  intro fuel
  induction fuel with
  | zero => intro current seen; simp [projectEvents]
  | succ fuel ih =>
    intro current seen
    by_cases hcur : current ≤ c.endDate
    · cases hI : c.intervalDays with
      | none =>
          by_cases hmem : (c.service, current) ∈ seen
          · have heq : projectEvents c (fuel + 1) current seen = ([], seen) := by
              simp [projectEvents, hcur, hmem, hI]
            rw [heq]
            simp
          · have heq : projectEvents c (fuel + 1) current seen
                = ([mkEvent c current], (c.service, current) :: seen) := by
              simp [projectEvents, hcur, hmem, hI]
            rw [heq]
            refine ⟨?_, ?_, ?_, ?_⟩
            · intro k hk
              exact List.mem_cons_of_mem _ hk
            · intro e he
              rcases List.mem_singleton.mp he with rfl
              rw [ekey_mkEvent]
              exact List.mem_cons_self _ _
            · intro e he
              rcases List.mem_singleton.mp he with rfl
              rw [ekey_mkEvent]
              exact hmem
            · simp
      | some i =>
          by_cases hmem : (c.service, current) ∈ seen
          · have heq : projectEvents c (fuel + 1) current seen
                = projectEvents c fuel (current + i) seen := by
              simp [projectEvents, hcur, hmem, hI]
            rw [heq]
            exact ih (current + i) seen
          · have heq : projectEvents c (fuel + 1) current seen
                = (mkEvent c current
                    :: (projectEvents c fuel (current + i)
                        ((c.service, current) :: seen)).1,
                   (projectEvents c fuel (current + i)
                        ((c.service, current) :: seen)).2) := by
              simp [projectEvents, hcur, hmem, hI]
            rw [heq]
            obtain ⟨mono, memfin, fresh, pw⟩ :=
              ih (current + i) ((c.service, current) :: seen)
            refine ⟨?_, ?_, ?_, ?_⟩
            · intro k hk
              exact mono k (List.mem_cons_of_mem _ hk)
            · intro e he
              rcases List.mem_cons.mp he with rfl | he'
              · rw [ekey_mkEvent]
                exact mono _ (List.mem_cons_self _ _)
              · exact memfin e he'
            · intro e he
              rcases List.mem_cons.mp he with rfl | he'
              · rw [ekey_mkEvent]
                exact hmem
              · intro hin
                exact fresh e he' (List.mem_cons_of_mem _ hin)
            · refine List.pairwise_cons.mpr ⟨?_, pw⟩
              intro b hb
              have hfb := fresh b hb
              rw [ekey_mkEvent]
              intro hEq
              exact hfb (hEq ▸ List.mem_cons_self _ _)
    · simp [projectEvents_out c _ _ _ hcur]

/-- Every emitted event is exactly the event the loop body builds for its
own occurrence date. -/
lemma projectEvents_shape (c : Ctx) :
    ∀ (fuel current : Nat) (seen : List DKey) (e : Event),
      e ∈ (projectEvents c fuel current seen).1 → e = mkEvent c e.dtstart := by
  intro fuel
  induction fuel with
  | zero => intro current seen e he; simp [projectEvents] at he
  | succ fuel ih =>
    intro current seen e he
    by_cases hcur : current ≤ c.endDate
    · cases hI : c.intervalDays with
      | none =>
          by_cases hmem : (c.service, current) ∈ seen
          · rw [show projectEvents c (fuel + 1) current seen = ([], seen) by
              simp [projectEvents, hcur, hmem, hI]] at he
            simp at he
          · rw [show projectEvents c (fuel + 1) current seen
                = ([mkEvent c current], (c.service, current) :: seen) by
              simp [projectEvents, hcur, hmem, hI]] at he
            rcases List.mem_singleton.mp he with rfl
            rfl
      | some i =>
          by_cases hmem : (c.service, current) ∈ seen
          · rw [show projectEvents c (fuel + 1) current seen
                = projectEvents c fuel (current + i) seen by
              simp [projectEvents, hcur, hmem, hI]] at he
            exact ih _ _ e he
          · rw [show projectEvents c (fuel + 1) current seen
                = (mkEvent c current
                    :: (projectEvents c fuel (current + i)
                        ((c.service, current) :: seen)).1,
                   (projectEvents c fuel (current + i)
                        ((c.service, current) :: seen)).2) by
              simp [projectEvents, hcur, hmem, hI]] at he
            rcases List.mem_cons.mp he with rfl | he'
            · rfl
            · exact ih _ _ e he'
    · rw [projectEvents_out c _ _ _ hcur] at he
      simp at he

/-- Every emitted event's date is at least the loop's entry date. -/
lemma projectEvents_lb (c : Ctx) :
    ∀ (fuel current : Nat) (seen : List DKey) (e : Event),
      e ∈ (projectEvents c fuel current seen).1 → current ≤ e.dtstart := by
  intro fuel
  induction fuel with
  | zero => intro current seen e he; simp [projectEvents] at he
  | succ fuel ih =>
    intro current seen e he
    by_cases hcur : current ≤ c.endDate
    · cases hI : c.intervalDays with
      | none =>
          by_cases hmem : (c.service, current) ∈ seen
          · rw [show projectEvents c (fuel + 1) current seen = ([], seen) by
              simp [projectEvents, hcur, hmem, hI]] at he
            simp at he
          · rw [show projectEvents c (fuel + 1) current seen
                = ([mkEvent c current], (c.service, current) :: seen) by
              simp [projectEvents, hcur, hmem, hI]] at he
            rcases List.mem_singleton.mp he with rfl
            exact Nat.le_refl _
      | some i =>
          by_cases hmem : (c.service, current) ∈ seen
          · rw [show projectEvents c (fuel + 1) current seen
                = projectEvents c fuel (current + i) seen by
              simp [projectEvents, hcur, hmem, hI]] at he
            exact le_trans (Nat.le_add_right _ _) (ih _ _ e he)
          · rw [show projectEvents c (fuel + 1) current seen
                = (mkEvent c current
                    :: (projectEvents c fuel (current + i)
                        ((c.service, current) :: seen)).1,
                   (projectEvents c fuel (current + i)
                        ((c.service, current) :: seen)).2) by
              simp [projectEvents, hcur, hmem, hI]] at he
            rcases List.mem_cons.mp he with rfl | he'
            · exact Nat.le_refl _
            · exact le_trans (Nat.le_add_right _ _) (ih _ _ e he')
    · rw [projectEvents_out c _ _ _ hcur] at he
      simp at he

/-- With a positive recurrence interval (or none at all), the events of one
record come out in strictly ascending date order. -/
lemma projectEvents_sorted (c : Ctx)
    (hpos : ∀ i, c.intervalDays = some i → 0 < i) :
    ∀ (fuel current : Nat) (seen : List DKey),
      List.Pairwise (fun a b => a.dtstart < b.dtstart)
        (projectEvents c fuel current seen).1 := by
  intro fuel
  induction fuel with
  | zero => intro current seen; simp [projectEvents]
  | succ fuel ih =>
    intro current seen
    by_cases hcur : current ≤ c.endDate
    · cases hI : c.intervalDays with
      | none =>
          by_cases hmem : (c.service, current) ∈ seen
          · rw [show projectEvents c (fuel + 1) current seen = ([], seen) by
              simp [projectEvents, hcur, hmem, hI]]
            simp
          · rw [show projectEvents c (fuel + 1) current seen
                = ([mkEvent c current], (c.service, current) :: seen) by
              simp [projectEvents, hcur, hmem, hI]]
            simp
      | some i =>
          by_cases hmem : (c.service, current) ∈ seen
          · rw [show projectEvents c (fuel + 1) current seen
                = projectEvents c fuel (current + i) seen by
              simp [projectEvents, hcur, hmem, hI]]
            exact ih _ _
          · rw [show projectEvents c (fuel + 1) current seen
                = (mkEvent c current
                    :: (projectEvents c fuel (current + i)
                        ((c.service, current) :: seen)).1,
                   (projectEvents c fuel (current + i)
                        ((c.service, current) :: seen)).2) by
              simp [projectEvents, hcur, hmem, hI]]
            refine List.pairwise_cons.mpr ⟨?_, ih _ _⟩
            intro b hb
            have hlb := projectEvents_lb c fuel (current + i) _ b hb
            have hip := hpos i hI
            show current < b.dtstart
            omega
    · rw [projectEvents_out c _ _ _ hcur]
      simp

/-- With no recurrence and a fresh key, the loop emits exactly one event at
the entry date and stops. -/
lemma projectEvents_none (c : Ctx) (hI : c.intervalDays = none)
    (fuel current : Nat) (seen : List DKey)
    (hcur : current ≤ c.endDate) (hmem : (c.service, current) ∉ seen) :
    projectEvents c (fuel + 1) current seen
      = ([mkEvent c current], (c.service, current) :: seen) := by
  simp [projectEvents, hcur, hmem, hI]

/-- With interval `i > 0` and no key of the record's arithmetic progression
in `seen`, the emitted dates are exactly the progression
`current, current + i, …` through `endDate`. -/
lemma projectEvents_dates (c : Ctx) (i : Nat) (hi : 0 < i)
    (hI : c.intervalDays = some i) :
    ∀ (fuel current : Nat) (seen : List DKey),
      current ≤ c.endDate → c.endDate < current + fuel →
      (∀ k : Nat, (c.service, current + k * i) ∉ seen) →
      (projectEvents c fuel current seen).1.map Event.dtstart
        = (List.range ((c.endDate - current) / i + 1)).map
            (fun k => current + k * i) := by
  intro fuel
  induction fuel with
  | zero => intro current seen hcur hfuel _; omega
  | succ fuel ih =>
    intro current seen hcur hfuel hfresh
    have hmem : (c.service, current) ∉ seen := by simpa using hfresh 0
    rw [show projectEvents c (fuel + 1) current seen
        = (mkEvent c current
            :: (projectEvents c fuel (current + i)
                ((c.service, current) :: seen)).1,
           (projectEvents c fuel (current + i)
                ((c.service, current) :: seen)).2) by
      simp [projectEvents, hcur, hmem, hI]]
    by_cases hstep : current + i ≤ c.endDate
    · have hfresh' : ∀ k : Nat,
          (c.service, current + i + k * i) ∉ (c.service, current) :: seen := by
        intro k
        rw [List.mem_cons]
        push_neg
        constructor
        · intro hEq
          have h2 := congrArg Prod.snd hEq
          simp at h2
          omega
        · have harith : current + i + k * i = current + (k + 1) * i := by ring
          rw [harith]
          exact hfresh (k + 1)
      have IH := ih (current + i) ((c.service, current) :: seen) hstep
        (by omega) hfresh'
      have hdiv : (c.endDate - current) / i
          = (c.endDate - (current + i)) / i + 1 := by
        rw [Nat.div_eq (c.endDate - current) i,
          if_pos ⟨hi, by omega⟩,
          show c.endDate - current - i = c.endDate - (current + i) by omega]
      have hmk : (mkEvent c current).dtstart = current := rfl
      rw [List.map_cons, IH, hmk, hdiv]
      conv_rhs => rw [List.range_succ_eq_map]
      rw [List.map_cons, List.map_map]
      congr 1
      · simp
      · apply List.map_congr_left
        intro k _
        simp only [Function.comp, Nat.succ_eq_add_one]
        ring
    · rw [projectEvents_out c fuel (current + i) _ hstep]
      have hdiv0 : (c.endDate - current) / i = 0 :=
        Nat.div_eq_of_lt (by omega)
      simp [hdiv0, mkEvent, List.range_succ]

lemma mkEvent_congr (c c' : Ctx) (d : Nat)
    (hs : c'.service = c.service) (hl : c'.label = c.label)
    (hsc : c'.schedule = c.schedule) (hr : c'.round = c.round) :
    mkEvent c' d = { mkEvent c d with dtstamp := c'.now } := by
  simp [mkEvent, hs, hl, hsc, hr]

/-- The wall clock read for `dtstamp` influences nothing else: two loop
contexts that agree on every field except `now` emit the same events with
only `dtstamp` replaced, and leave the same dedup set. -/
lemma projectEvents_now (c c' : Ctx)
    (hs : c'.service = c.service) (hl : c'.label = c.label)
    (hsc : c'.schedule = c.schedule) (hr : c'.round = c.round)
    (hi : c'.intervalDays = c.intervalDays) (he : c'.endDate = c.endDate) :
    ∀ (fuel current : Nat) (seen : List DKey),
      projectEvents c' fuel current seen
        = ((projectEvents c fuel current seen).1.map
            (fun e => { e with dtstamp := c'.now }),
           (projectEvents c fuel current seen).2) := by
  intro fuel
  induction fuel with
  | zero => intro current seen; simp [projectEvents]
  | succ fuel ih =>
    intro current seen
    by_cases hcur : current ≤ c.endDate
    · cases hI : c.intervalDays with
      | none =>
          have hI' : c'.intervalDays = none := by rw [hi, hI]
          by_cases hmem : (c.service, current) ∈ seen
          · rw [show projectEvents c (fuel + 1) current seen = ([], seen) by
                simp [projectEvents, hcur, hmem, hI],
              show projectEvents c' (fuel + 1) current seen = ([], seen) by
                simp [projectEvents, he, hs, hcur, hmem, hI']]
            simp
          · rw [show projectEvents c (fuel + 1) current seen
                  = ([mkEvent c current], (c.service, current) :: seen) by
                simp [projectEvents, hcur, hmem, hI],
              show projectEvents c' (fuel + 1) current seen
                  = ([mkEvent c' current], (c'.service, current) :: seen) by
                simp [projectEvents, he, hs, hcur, hmem, hI']]
            simp [mkEvent_congr c c' current hs hl hsc hr, hs]
      | some i =>
          have hI' : c'.intervalDays = some i := by rw [hi, hI]
          by_cases hmem : (c.service, current) ∈ seen
          · rw [show projectEvents c (fuel + 1) current seen
                  = projectEvents c fuel (current + i) seen by
                simp [projectEvents, hcur, hmem, hI],
              show projectEvents c' (fuel + 1) current seen
                  = projectEvents c' fuel (current + i) seen by
                simp [projectEvents, he, hs, hcur, hmem, hI']]
            exact ih _ _
          · rw [show projectEvents c (fuel + 1) current seen
                  = (mkEvent c current
                      :: (projectEvents c fuel (current + i)
                          ((c.service, current) :: seen)).1,
                     (projectEvents c fuel (current + i)
                          ((c.service, current) :: seen)).2) by
                simp [projectEvents, hcur, hmem, hI],
              show projectEvents c' (fuel + 1) current seen
                  = (mkEvent c' current
                      :: (projectEvents c' fuel (current + i)
                          ((c'.service, current) :: seen)).1,
                     (projectEvents c' fuel (current + i)
                          ((c'.service, current) :: seen)).2) by
                simp [projectEvents, he, hs, hcur, hmem, hI']]
            rw [hs, ih]
            simp [mkEvent_congr c c' current hs hl hsc hr]
    · have hcur' : ¬ current ≤ c'.endDate := by rw [he]; exact hcur
      rw [projectEvents_out c _ _ _ hcur, projectEvents_out c' _ _ _ hcur']
      simp

/-! ### Facts about the recurrence inference and per-record processing -/

lemma inferIntervalDays_mem (s : String) :
    inferIntervalDays s = some 14 ∨ inferIntervalDays s = some 7 ∨
      inferIntervalDays s = none := by
  unfold inferIntervalDays
  by_cases h1 : strContains (strLower s) "every other week" = true
  · simp [h1]
  · by_cases h2 : strContains (strLower s) "every week" = true
    · simp [h1, h2]
    · simp [h1, h2]

lemma inferIntervalDays_pos (s : String) (i : Nat)
    (h : inferIntervalDays s = some i) : 0 < i := by
  rcases inferIntervalDays_mem s with h' | h' | h' <;> rw [h'] at h <;>
    simp_all <;> omega

lemma fromisoformatDate_ne_empty (s : String) (d : Nat)
    (h : fromisoformatDate s = some d) : s ≠ "" := by
  rintro rfl
  rw [show fromisoformatDate "" = none from rfl] at h
  cases h

lemma itemCtx_service (item : RawItem) (now nd : Nat) :
    (itemCtx item now nd).service = item.hso_servicename.getD "Unknown" := rfl

lemma itemCtx_label (item : RawItem) (now nd : Nat) :
    (itemCtx item now nd).label
      = serviceLabel (item.hso_servicename.getD "Unknown") := rfl

lemma itemCtx_intervalDays (item : RawItem) (now nd : Nat) :
    (itemCtx item now nd).intervalDays
      = inferIntervalDays (item.hso_scheduledescription.getD "") := rfl

lemma itemCtx_endDate (item : RawItem) (now nd : Nat) :
    (itemCtx item now nd).endDate = nd + 7 * 26 := rfl

lemma processItem_eq_proj (now : Nat) (seen : List DKey) (item : RawItem)
    (s : String) (nextDate : Nat)
    (hnc : item.hso_nextcollection = some s) (hs : s ≠ "")
    (hp : fromisoformatDate s = some nextDate) :
    processItem now seen item
      = .ok (projectEvents (itemCtx item now nextDate) (7 * 26 + 2)
              nextDate seen) := by
  unfold processItem
  rw [hnc]
  simp only [if_neg hs, hp]

/-- Inversion for a successful record step: either the record was skipped
for lack of a date (nothing emitted, `seen` unchanged), or the date parsed
and the result is the projection loop's. -/
lemma processItem_ok (now : Nat) (seen : List DKey) (item : RawItem)
    (es : List Event) (seen' : List DKey)
    (h : processItem now seen item = .ok (es, seen')) :
    (es = [] ∧ seen' = seen) ∨
    ∃ s nextDate, item.hso_nextcollection = some s ∧ s ≠ "" ∧
      fromisoformatDate s = some nextDate ∧
      (es, seen') = projectEvents (itemCtx item now nextDate) (7 * 26 + 2)
        nextDate seen := by
  unfold processItem at h
  cases hnc : item.hso_nextcollection with
  | none =>
      simp only [hnc, Except.ok.injEq, Prod.mk.injEq] at h
      exact Or.inl ⟨h.1.symm, h.2.symm⟩
  | some s =>
      simp only [hnc] at h
      by_cases hs : s = ""
      · rw [if_pos hs] at h
        simp only [Except.ok.injEq, Prod.mk.injEq] at h
        exact Or.inl ⟨h.1.symm, h.2.symm⟩
      · rw [if_neg hs] at h
        cases hp : fromisoformatDate s with
        | none => simp only [hp] at h; exact Except.noConfusion h
        | some nd =>
            simp only [hp, Except.ok.injEq] at h
            exact Or.inr ⟨s, nd, rfl, hs, hp, h.symm⟩

/-- The record-step invariant: `seen` grows, emitted keys are fresh, land
in the outgoing `seen`, and are pairwise distinct. -/
lemma processItem_inv (now : Nat) (seen : List DKey) (item : RawItem)
    (es : List Event) (seen' : List DKey)
    (h : processItem now seen item = .ok (es, seen')) :
    (∀ k, k ∈ seen → k ∈ seen') ∧
    (∀ e, e ∈ es → ekey e ∈ seen') ∧
    (∀ e, e ∈ es → ekey e ∉ seen) ∧
    List.Pairwise (fun a b => ekey a ≠ ekey b) es := by
  rcases processItem_ok now seen item es seen' h with
    ⟨rfl, rfl⟩ | ⟨s, nd, _, _, _, heq⟩
  · exact ⟨fun k hk => hk, by simp, by simp, by simp⟩
  · have h1 : es = (projectEvents (itemCtx item now nd) (7 * 26 + 2)
        nd seen).1 := congrArg Prod.fst heq
    have h2 : seen' = (projectEvents (itemCtx item now nd) (7 * 26 + 2)
        nd seen).2 := congrArg Prod.snd heq
    subst h1; subst h2
    exact projectEvents_inv (itemCtx item now nd) (7 * 26 + 2) nd seen

/-- The whole-run invariant behind the dedup guarantee. -/
lemma buildCalendar_inv (now : Nat) :
    ∀ (items : List RawItem) (seen : List DKey) (es : List Event)
      (seen' : List DKey),
      buildCalendar now items seen = .ok (es, seen') →
      (∀ k, k ∈ seen → k ∈ seen') ∧
      (∀ e, e ∈ es → ekey e ∈ seen') ∧
      (∀ e, e ∈ es → ekey e ∉ seen) ∧
      List.Pairwise (fun a b => ekey a ≠ ekey b) es := by
  intro items
  induction items with
  | nil =>
      intro seen es seen' h
      simp only [buildCalendar, Except.ok.injEq, Prod.mk.injEq] at h
      obtain ⟨h1, h2⟩ := h
      subst h1; subst h2
      exact ⟨fun k hk => hk, by simp, by simp, by simp⟩
  | cons item rest ih =>
      intro seen es seen' h
      unfold buildCalendar at h
      cases hp : processItem now seen item with
      | error e => simp only [hp] at h; exact Except.noConfusion h
      | ok p =>
          obtain ⟨es1, seen1⟩ := p
          simp only [hp] at h
          cases hb : buildCalendar now rest seen1 with
          | error e => simp only [hb] at h; exact Except.noConfusion h
          | ok q =>
              obtain ⟨es2, seen2⟩ := q
              simp only [hb, Except.ok.injEq, Prod.mk.injEq] at h
              obtain ⟨h1, h2⟩ := h
              subst h1; subst h2
              obtain ⟨mono1, memfin1, fresh1, pw1⟩ :=
                processItem_inv now seen item es1 seen1 hp
              obtain ⟨mono2, memfin2, fresh2, pw2⟩ := ih seen1 es2 seen2 hb
              refine ⟨?_, ?_, ?_, ?_⟩
              · intro k hk
                exact mono2 k (mono1 k hk)
              · intro e he
                rcases List.mem_append.mp he with he' | he'
                · exact mono2 _ (memfin1 e he')
                · exact memfin2 e he'
              · intro e he
                rcases List.mem_append.mp he with he' | he'
                · exact fresh1 e he'
                · intro hin
                  exact fresh2 e he' (mono1 _ hin)
              · refine List.pairwise_append.mpr ⟨pw1, pw2, ?_⟩
                intro a ha b hb'
                have h1 := memfin1 a ha
                have h2 := fresh2 b hb'
                intro hEq
                exact h2 (hEq ▸ h1)

/-- Records are processed in input order and their event blocks are
concatenated, threading the dedup set left to right; no re-sorting ever
happens afterwards. -/
lemma buildCalendar_append (now : Nat) :
    ∀ (xs ys : List RawItem) (seen : List DKey) (es1 : List Event)
      (s1 : List DKey) (es2 : List Event) (s2 : List DKey),
      buildCalendar now xs seen = .ok (es1, s1) →
      buildCalendar now ys s1 = .ok (es2, s2) →
      buildCalendar now (xs ++ ys) seen = .ok (es1 ++ es2, s2) := by
  intro xs
  induction xs with
  | nil =>
      intro ys seen es1 s1 es2 s2 h1 h2
      simp only [buildCalendar, Except.ok.injEq, Prod.mk.injEq] at h1
      obtain ⟨ha, hb⟩ := h1
      subst ha; subst hb
      simpa using h2
  | cons item rest ih =>
      intro ys seen es1 s1 es2 s2 h1 h2
      unfold buildCalendar at h1
      cases hp : processItem now seen item with
      | error e => simp only [hp] at h1; exact Except.noConfusion h1
      | ok p =>
          obtain ⟨esh, seenh⟩ := p
          simp only [hp] at h1
          cases hb : buildCalendar now rest seenh with
          | error e => simp only [hb] at h1; exact Except.noConfusion h1
          | ok q =>
              obtain ⟨est, seent⟩ := q
              simp only [hb, Except.ok.injEq, Prod.mk.injEq] at h1
              obtain ⟨ha, hs1⟩ := h1
              subst ha; subst hs1
              have hrec := ih ys seenh est seent es2 s2 hb h2
              show buildCalendar now (item :: (rest ++ ys)) seen = _
              unfold buildCalendar
              simp only [hp, hrec, List.append_assoc]

/-! ### Characterisation of the substring matching -/

lemma startsWith_iff (pat : List Char) :
    ∀ hay : List Char, startsWith pat hay = true ↔ ∃ post, hay = pat ++ post := by
  induction pat with
  | nil => intro hay; simp [startsWith]
  | cons a pat ih =>
      intro hay
      cases hay with
      | nil =>
          simp [startsWith]
      | cons b hay' =>
          rw [show startsWith (a :: pat) (b :: hay')
              = (a == b && startsWith pat hay') from rfl,
            Bool.and_eq_true, beq_iff_eq, ih]
          constructor
          · rintro ⟨rfl, post, rfl⟩
            exact ⟨post, rfl⟩
          · rintro ⟨post, hpost⟩
            rw [List.cons_append] at hpost
            obtain ⟨h1, h2⟩ := List.cons.inj hpost
            exact ⟨h1.symm, post, h2⟩

lemma hasSub_iff (pat : List Char) :
    ∀ hay : List Char,
      hasSub pat hay = true ↔ ∃ pre post, hay = pre ++ pat ++ post := by
  intro hay
  induction hay with
  | nil =>
      rw [show hasSub pat [] = startsWith pat [] from rfl, startsWith_iff]
      constructor
      · rintro ⟨post, hpost⟩
        exact ⟨[], post, by simpa using hpost⟩
      · rintro ⟨pre, post, h⟩
        have h' := h.symm
        rw [List.append_assoc, List.append_eq_nil] at h'
        obtain ⟨h1, h2⟩ := h'
        rw [List.append_eq_nil] at h2
        exact ⟨[], by simp [h2.1]⟩
  | cons c hay' ih =>
      rw [show hasSub pat (c :: hay')
          = (startsWith pat (c :: hay') || hasSub pat hay') from rfl,
        Bool.or_eq_true, startsWith_iff, ih]
      constructor
      · rintro (⟨post, hpost⟩ | ⟨pre, post, h⟩)
        · exact ⟨[], post, by simpa using hpost⟩
        · exact ⟨c :: pre, post, by simp [h]⟩
      · rintro ⟨pre, post, h⟩
        cases pre with
        | nil => exact Or.inl ⟨post, by simpa using h⟩
        | cons p pre' =>
            right
            rw [List.cons_append, List.cons_append] at h
            obtain ⟨h1, h2⟩ := List.cons.inj h
            exact ⟨pre', post, h2⟩

lemma strContains_iff (s pat : String) :
    strContains s pat = true ↔
      ∃ pre post, s.toList = pre ++ pat.toList ++ post :=
  hasSub_iff pat.toList s.toList

/-! ### Independence from the wall clock, and the uid shape -/

lemma processItem_now (n1 n2 : Nat) (seen : List DKey) (item : RawItem) :
    processItem n2 seen item
      = (processItem n1 seen item).map
          (fun p => (p.1.map (fun e => { e with dtstamp := n2 }), p.2)) := by
  unfold processItem
  cases item.hso_nextcollection with
  | none => simp [Except.map]
  | some s =>
      dsimp only
      by_cases hs : s = ""
      · simp [hs, Except.map]
      · rw [if_neg hs, if_neg hs]
        cases fromisoformatDate s with
        | none => simp [Except.map]
        | some nd =>
            dsimp only
            rw [projectEvents_now (itemCtx item n1 nd) (itemCtx item n2 nd)
              rfl rfl rfl rfl rfl rfl]
            rfl

lemma buildCalendar_now (n1 n2 : Nat) :
    ∀ (items : List RawItem) (seen : List DKey),
      buildCalendar n2 items seen
        = (buildCalendar n1 items seen).map
            (fun p => (p.1.map (fun e => { e with dtstamp := n2 }), p.2)) := by
  intro items
  induction items with
  | nil => intro seen; simp [buildCalendar, Except.map]
  | cons item rest ih =>
      intro seen
      unfold buildCalendar
      rw [processItem_now n1 n2 seen item]
      cases hp : processItem n1 seen item with
      | error e => simp [Except.map]
      | ok p =>
          obtain ⟨es1, seen1⟩ := p
          simp only [Except.map]
          rw [ih seen1]
          cases hb : buildCalendar n1 rest seen1 with
          | error e => simp [Except.map]
          | ok q =>
              obtain ⟨es2, seen2⟩ := q
              simp [Except.map, List.map_append]

lemma mkEvent_uid_form (c : Ctx) (d : Nat) :
    (mkEvent c d).uid
      = strLower (mkEvent c d).service ++ "-"
        ++ isoformat (mkEvent c d).dtstart ++ "@southglos-bins" := rfl

lemma buildCalendar_uid (now : Nat) :
    ∀ (items : List RawItem) (seen : List DKey) (es : List Event)
      (seen' : List DKey),
      buildCalendar now items seen = .ok (es, seen') →
      ∀ e, e ∈ es → e.uid
        = strLower e.service ++ "-" ++ isoformat e.dtstart
          ++ "@southglos-bins" := by
  intro items
  induction items with
  | nil =>
      intro seen es seen' h e he
      simp only [buildCalendar, Except.ok.injEq, Prod.mk.injEq] at h
      obtain ⟨h1, _⟩ := h
      subst h1
      simp at he
  | cons item rest ih =>
      intro seen es seen' h e he
      unfold buildCalendar at h
      cases hp : processItem now seen item with
      | error err => simp only [hp] at h; exact Except.noConfusion h
      | ok p =>
          obtain ⟨es1, seen1⟩ := p
          simp only [hp] at h
          cases hb : buildCalendar now rest seen1 with
          | error err => simp only [hb] at h; exact Except.noConfusion h
          | ok q =>
              obtain ⟨es2, seen2⟩ := q
              simp only [hb, Except.ok.injEq, Prod.mk.injEq] at h
              obtain ⟨h1, _⟩ := h
              subst h1
              rcases List.mem_append.mp he with he' | he'
              · rcases processItem_ok now seen item es1 seen1 hp with
                  ⟨rfl, _⟩ | ⟨s, nd, _, _, _, heq⟩
                · simp at he'
                · have h1 : es1 = (projectEvents (itemCtx item now nd)
                      (7 * 26 + 2) nd seen).1 := congrArg Prod.fst heq
                  subst h1
                  have hshape := projectEvents_shape (itemCtx item now nd)
                    (7 * 26 + 2) nd seen e he'
                  rw [hshape]
                  exact mkEvent_uid_form _ _
              · exact ih seen1 es2 seen2 hb e he'

/-- The one-record unfolding of the record loop. -/
lemma buildCalendar_cons (now : Nat) (seen : List DKey) (item : RawItem)
    (rest : List RawItem) :
    buildCalendar now (item :: rest) seen
      = match processItem now seen item with
        | .error e => .error e
        | .ok (es, seen') =>
          match buildCalendar now rest seen' with
          | .error e => .error e
          | .ok (es', seen'') => .ok (es ++ es', seen'') := rfl

/-! ### The claims -/

/-- C1: for every input list of records, the output contains at most one
descriptor per distinct (service_name, occurrence_date) pair — the single
dedup set threaded across all records in one pass makes the emitted keys
pairwise distinct (an occurrence already present is skipped silently, so
it never appears a second time). -/
theorem claim_C1_dedup (collections : List RawItem) (now : Nat) :
    List.Pairwise (fun a b => ekey a ≠ ekey b)
      (eventsOf (build_calendar collections now)) := by
  cases hb : buildCalendar now collections [] with
  | error e => simp [build_calendar, eventsOf, hb]
  | ok p =>
      obtain ⟨es, seen'⟩ := p
      have hpw := (buildCalendar_inv now collections [] es seen' hb).2.2.2
      simpa [build_calendar, eventsOf, hb] using hpw

/-- C2: for a record whose date parses to `D`, processed with a fresh dedup
set, the projected occurrence dates are exactly the arithmetic progression
`D, D + i, D + 2i, …` through every date not exceeding `D + 26` weeks
(inclusive of the boundary) when the inferred interval is `some i`; with no
inferred recurrence, exactly one occurrence at `D` is produced. -/
theorem claim_C2_projection (item : RawItem) (now D : Nat) (s : String)
    (hnc : item.hso_nextcollection = some s)
    (hD : fromisoformatDate s = some D) :
    (∀ i, inferIntervalDays (item.hso_scheduledescription.getD "") = some i →
      ∃ es seen', processItem now [] item = .ok (es, seen')
        ∧ es.map Event.dtstart
            = (List.range ((7 * 26) / i + 1)).map (fun k => D + k * i)
        ∧ ∀ d : Nat, (d ∈ es.map Event.dtstart
            ↔ ∃ k : Nat, d = D + k * i ∧ d ≤ D + 7 * 26))
    ∧ (inferIntervalDays (item.hso_scheduledescription.getD "") = none →
      ∃ es seen', processItem now [] item = .ok (es, seen')
        ∧ es.map Event.dtstart = [D]) := by
  have hs : s ≠ "" := fromisoformatDate_ne_empty s D hD
  have hproc := processItem_eq_proj now [] item s D hnc hs hD
  constructor
  · intro i hi
    have hipos := inferIntervalDays_pos _ i hi
    have hIc : (itemCtx item now D).intervalDays = some i := by
      rw [itemCtx_intervalDays]; exact hi
    have hsub : (itemCtx item now D).endDate - D = 7 * 26 := by
      rw [itemCtx_endDate]; omega
    have hdates := projectEvents_dates (itemCtx item now D) i hipos hIc
      (7 * 26 + 2) D []
      (by rw [itemCtx_endDate]; omega)
      (by rw [itemCtx_endDate]; omega)
      (by intro k; simp)
    rw [hsub] at hdates
    refine ⟨(projectEvents (itemCtx item now D) (7 * 26 + 2) D []).1,
      (projectEvents (itemCtx item now D) (7 * 26 + 2) D []).2,
      hproc, hdates, ?_⟩
    intro d
    rw [hdates]
    constructor
    · intro hd
      simp only [List.mem_map, List.mem_range] at hd
      obtain ⟨k, hk, rfl⟩ := hd
      have hk' : k ≤ 7 * 26 / i := by omega
      have hmul : k * i ≤ 7 * 26 := (Nat.le_div_iff_mul_le hipos).mp hk'
      exact ⟨k, rfl, by omega⟩
    · rintro ⟨k, rfl, hle⟩
      simp only [List.mem_map, List.mem_range]
      have hmul : k * i ≤ 7 * 26 := by omega
      have hk' : k ≤ 7 * 26 / i := (Nat.le_div_iff_mul_le hipos).mpr hmul
      exact ⟨k, by omega, rfl⟩
  · intro hnone
    have hIc : (itemCtx item now D).intervalDays = none := by
      rw [itemCtx_intervalDays]; exact hnone
    have hone := projectEvents_none (itemCtx item now D) hIc (7 * 26 + 1) D []
      (by rw [itemCtx_endDate]; omega) (by simp)
    have hf : (7 : Nat) * 26 + 1 + 1 = 7 * 26 + 2 := rfl
    rw [hf] at hone
    rw [hone] at hproc
    exact ⟨_, _, hproc, rfl⟩

/-- C2 witness: the fortnightly Recycling record projects exactly the
14-term progression of 14-day-spaced dates from 2026-02-23. -/
theorem claim_C2_witness :
    itemRecycling.hso_nextcollection = some "2026-02-23"
    ∧ fromisoformatDate "2026-02-23" = some d20260223
    ∧ inferIntervalDays (itemRecycling.hso_scheduledescription.getD "")
        = some 14
    ∧ ∃ es seen', processItem 0 [] itemRecycling = .ok (es, seen')
        ∧ es.map Event.dtstart
            = (List.range ((7 * 26) / 14 + 1)).map
                (fun k => d20260223 + k * 14) := by
  refine ⟨rfl, by decide, by decide, ?_⟩
  obtain ⟨es, seen', hok, hmap, _⟩ :=
    (claim_C2_projection itemRecycling 0 d20260223 "2026-02-23" rfl
      (by decide)).1 14 (by decide)
  exact ⟨es, seen', hok, hmap⟩

/-- C3: the recurrence is inferred by case-insensitive substring match on
the schedule description — "every other week" gives a 14-day interval,
otherwise "every week" gives 7 days, otherwise no recurrence — and no
other cadence is representable. -/
theorem claim_C3_recurrence_inference (s : String) :
    (inferIntervalDays s = some 14 ↔
      ∃ pre post, (strLower s).toList
        = pre ++ "every other week".toList ++ post)
    ∧ (inferIntervalDays s = some 7 ↔
      ((¬ ∃ pre post, (strLower s).toList
          = pre ++ "every other week".toList ++ post)
        ∧ ∃ pre post, (strLower s).toList
            = pre ++ "every week".toList ++ post))
    ∧ (inferIntervalDays s = none ↔
      ((¬ ∃ pre post, (strLower s).toList
          = pre ++ "every other week".toList ++ post)
        ∧ ¬ ∃ pre post, (strLower s).toList
            = pre ++ "every week".toList ++ post))
    ∧ (∀ i, inferIntervalDays s = some i → i = 14 ∨ i = 7) := by
  have h14 := strContains_iff (strLower s) "every other week"
  have h7 := strContains_iff (strLower s) "every week"
  rw [← h14, ← h7]
  unfold inferIntervalDays
  by_cases h1 : strContains (strLower s) "every other week" = true
  · rw [if_pos h1]
    refine ⟨by simp [h1], by simp [h1], by simp [h1], ?_⟩
    intro i hi
    exact Or.inl (Option.some.inj hi).symm
  · rw [if_neg h1]
    by_cases h2 : strContains (strLower s) "every week" = true
    · rw [if_pos h2]
      refine ⟨by simp [h1], by simp [h1, h2], by simp [h2], ?_⟩
      intro i hi
      exact Or.inr (Option.some.inj hi).symm
    · rw [if_neg h2]
      refine ⟨by simp [h1], by simp [h2], by simp [h1, h2], ?_⟩
      intro i hi
      exact Option.noConfusion hi

/-- C3 witness: a schedule text containing the fortnightly phrase is
classified as a 14-day interval. -/
theorem claim_C3_witness :
    inferIntervalDays "Monday every other week" = some 14 :=
  (claim_C3_recurrence_inference "Monday every other week").1.mpr
    ⟨"monday ".toList, [], by decide⟩

/-- C4 counterexample: a record with an unparseable `next_collection_date`
is not skipped — `build_calendar` raises, and the following perfectly good
Food record (which alone yields an event) produces nothing. -/
theorem claim_C4_counterexample :
    buildCalendar 0 [itemBadDate, itemFood] []
        = .error "Invalid isoformat string: not-a-date"
    ∧ eventsOf (build_calendar [itemBadDate, itemFood] 0) = []
    ∧ eventsOf (build_calendar [itemFood] 0) ≠ [] := by
  refine ⟨rfl, rfl, by decide⟩

/-- C4 amended: a record whose `next_collection_date` is missing (absent
or empty) is skipped silently and processing continues with the remaining
records unchanged; but a record whose date is present and unparseable
raises an error that aborts the entire build. -/
theorem claim_C4_amended :
    (∀ (now : Nat) (seen : List DKey) (item : RawItem)
        (rest : List RawItem), item.hso_nextcollection = none →
      buildCalendar now (item :: rest) seen = buildCalendar now rest seen)
    ∧ (∀ (now : Nat) (seen : List DKey) (item : RawItem)
        (rest : List RawItem), item.hso_nextcollection = some "" →
      buildCalendar now (item :: rest) seen = buildCalendar now rest seen)
    ∧ (∀ (now : Nat) (seen : List DKey) (item : RawItem)
        (rest : List RawItem) (s : String),
      item.hso_nextcollection = some s → s ≠ "" →
      fromisoformatDate s = none →
      buildCalendar now (item :: rest) seen
        = .error ("Invalid isoformat string: " ++ s)) := by
  refine ⟨?_, ?_, ?_⟩
  · intro now seen item rest h
    rw [buildCalendar_cons, show processItem now seen item = .ok ([], seen) by
      unfold processItem; rw [h]]
    dsimp only
    cases hb : buildCalendar now rest seen with
    | error e => rfl
    | ok p =>
        obtain ⟨a, b⟩ := p
        simp
  · intro now seen item rest h
    rw [buildCalendar_cons, show processItem now seen item = .ok ([], seen) by
      unfold processItem; simp [h]]
    dsimp only
    cases hb : buildCalendar now rest seen with
    | error e => rfl
    | ok p =>
        obtain ⟨a, b⟩ := p
        simp
  · intro now seen item rest s h hs hp
    rw [buildCalendar_cons, show processItem now seen item
        = .error ("Invalid isoformat string: " ++ s) by
      unfold processItem; simp [h, hs, hp]]

/-- C4 witness: a dateless Garden record is a no-op before a Food record,
and the unparseable Refuse record aborts the build. -/
theorem claim_C4_witness :
    buildCalendar 0 (itemNoDate :: [itemFood]) []
        = buildCalendar 0 [itemFood] []
    ∧ buildCalendar 0 [itemBadDate] []
        = .error ("Invalid isoformat string: " ++ "not-a-date") :=
  ⟨claim_C4_amended.1 0 [] itemNoDate [itemFood] rfl,
   claim_C4_amended.2.2 0 [] itemBadDate [] "not-a-date" rfl
     (by decide) (by decide)⟩

/-- C5: running the projector twice on identical input yields identical
stable identifiers whatever the wall clock reads, and every emitted
descriptor's uid is deterministically derived from its service name and
occurrence date. -/
theorem claim_C5_determinism :
    (∀ (collections : List RawItem) (n1 n2 : Nat),
      (build_calendar collections n1).map
          (fun cal => cal.events.map Event.uid)
        = (build_calendar collections n2).map
            (fun cal => cal.events.map Event.uid))
    ∧ (∀ (collections : List RawItem) (now : Nat) (e : Event),
        e ∈ eventsOf (build_calendar collections now) →
        e.uid = strLower e.service ++ "-" ++ isoformat e.dtstart
          ++ "@southglos-bins") := by
  constructor
  · intro cs n1 n2
    unfold build_calendar
    rw [buildCalendar_now n1 n2 cs []]
    cases hb : buildCalendar n1 cs [] with
    | error e => simp [Except.map]
    | ok p =>
        obtain ⟨es, sn⟩ := p
        simp only [Except.map, List.map_map]
        congr 1
  · intro cs now e he
    cases hb : buildCalendar now cs [] with
    | error err => simp [build_calendar, eventsOf, hb] at he
    | ok p =>
        obtain ⟨es, sn⟩ := p
        simp only [build_calendar, eventsOf, hb] at he
        exact buildCalendar_uid now cs [] es sn hb e he

/-- C5 witness: the single Food event carries exactly the uid derived from
its lower-cased service name and ISO date. -/
theorem claim_C5_witness :
    mkEvent (itemCtx itemFood 0 d20260223) d20260223
        ∈ eventsOf (build_calendar [itemFood] 0)
    ∧ (mkEvent (itemCtx itemFood 0 d20260223) d20260223).uid
        = strLower (mkEvent (itemCtx itemFood 0 d20260223) d20260223).service
          ++ "-"
          ++ isoformat
              (mkEvent (itemCtx itemFood 0 d20260223) d20260223).dtstart
          ++ "@southglos-bins" := by
  have hm : mkEvent (itemCtx itemFood 0 d20260223) d20260223
      ∈ eventsOf (build_calendar [itemFood] 0) := by decide
  exact ⟨hm, claim_C5_determinism.2 [itemFood] 0 _ hm⟩

/-- C6 counterexample: the fallback label uses the raw service name
verbatim, not title-cased — for the unknown service "textiles" the label
keeps the lower-case t, so the claimed title-cased form is not produced. -/
theorem claim_C6_counterexample :
    serviceLabel "textiles" = "🗑️ textiles collection"
    ∧ serviceLabel "textiles" ≠ "🗑️ Textiles collection"
    ∧ (eventsOf (build_calendar [itemTextilesLower] 0)).map Event.summary
        = ["🗑️ textiles collection"] := by
  refine ⟨rfl, by decide, by decide⟩

/-- C6 amended: labels come from the fixed lookup table, and a service
name not in the table gets the generic label built from the raw service
name verbatim with the generic icon prefix; such a record is never
discarded and never an error — the unknown-service "Textiles" record
yields exactly one occurrence labelled "🗑️ Textiles collection". -/
theorem claim_C6_amended :
    (∀ service : String, SERVICE_LABELS.lookup service = none →
      serviceLabel service = "🗑️ " ++ service ++ " collection")
    ∧ (∀ (now : Nat) (seen : List DKey) (item : RawItem) (s : String)
        (D : Nat),
        item.hso_nextcollection = some s → fromisoformatDate s = some D →
        ∃ es seen', processItem now seen item = .ok (es, seen')
          ∧ ∀ e ∈ es, e.summary
              = serviceLabel (item.hso_servicename.getD "Unknown"))
    ∧ (eventsOf (build_calendar [itemTextiles] 0)).map
        (fun e => (e.summary, e.dtstart))
        = [("🗑️ Textiles collection", d20260223)] := by
  refine ⟨?_, ?_, by decide⟩
  · intro service h
    unfold serviceLabel
    rw [h]
    rfl
  · intro now seen item s D hnc hD
    have hs := fromisoformatDate_ne_empty s D hD
    have hproc := processItem_eq_proj now seen item s D hnc hs hD
    refine ⟨_, _, hproc, ?_⟩
    intro e he
    have hshape := projectEvents_shape (itemCtx item now D) (7 * 26 + 2)
      D seen e he
    rw [hshape]
    rfl

/-- C6 witness: "Textiles" is not in the table and gets the generic label,
and its record is processed without error. -/
theorem claim_C6_witness :
    serviceLabel "Textiles" = "🗑️ " ++ "Textiles" ++ " collection"
    ∧ ∃ es seen', processItem 0 [] itemTextiles = .ok (es, seen')
        ∧ ∀ e ∈ es, e.summary
            = serviceLabel (itemTextiles.hso_servicename.getD "Unknown") := by
  constructor
  · exact claim_C6_amended.1 "Textiles" (by decide)
  · exact claim_C6_amended.2.1 0 [] itemTextiles "2026-02-23" d20260223 rfl
      (by decide)

/-- C7: the emitted sequence is in insertion order of generation — within
one record the dates come out strictly ascending, and across records the
per-record blocks are concatenated in the records' original order with the
dedup set threaded left to right; nothing is ever re-sorted afterwards. -/
theorem claim_C7_ordering :
    (∀ (now : Nat) (seen : List DKey) (item : RawItem) (es : List Event)
        (seen' : List DKey), processItem now seen item = .ok (es, seen') →
        List.Pairwise (fun a b => a.dtstart < b.dtstart) es)
    ∧ (∀ (now : Nat) (xs ys : List RawItem) (seen : List DKey)
        (es1 : List Event) (s1 : List DKey) (es2 : List Event)
        (s2 : List DKey),
        buildCalendar now xs seen = .ok (es1, s1) →
        buildCalendar now ys s1 = .ok (es2, s2) →
        buildCalendar now (xs ++ ys) seen = .ok (es1 ++ es2, s2)) := by
  constructor
  · intro now seen item es seen' h
    rcases processItem_ok now seen item es seen' h with
      ⟨rfl, _⟩ | ⟨s, nd, _, _, _, heq⟩
    · simp
    · have h1 : es = (projectEvents (itemCtx item now nd) (7 * 26 + 2)
          nd seen).1 := congrArg Prod.fst heq
      subst h1
      apply projectEvents_sorted
      intro i hIc
      rw [itemCtx_intervalDays] at hIc
      exact inferIntervalDays_pos _ i hIc
  · intro now
    exact buildCalendar_append now

/-- C7 witness: the fortnightly Recycling record's events are strictly
ascending, and a skipped record followed by the Food record concatenates
in input order. -/
theorem claim_C7_witness :
    (∃ es seen', processItem 0 [] itemRecycling = .ok (es, seen')
      ∧ List.Pairwise (fun a b => a.dtstart < b.dtstart) es)
    ∧ buildCalendar 0 ([itemNoDate] ++ [itemFood]) []
        = .ok ([] ++ [mkEvent (itemCtx itemFood 0 d20260223) d20260223],
               [("Food", d20260223)]) := by
  constructor
  · have hok := processItem_eq_proj 0 [] itemRecycling "2026-02-23"
      d20260223 rfl (by decide) (by decide)
    exact ⟨_, _, hok, claim_C7_ordering.1 0 [] itemRecycling _ _ hok⟩
  · exact claim_C7_ordering.2 0 [itemNoDate] [itemFood] [] [] []
      [mkEvent (itemCtx itemFood 0 d20260223) d20260223]
      [("Food", d20260223)] rfl rfl

/-- C8 counterexample: when the API returns a success status with no
records, `fetch_collections` does not raise — the run succeeds and writes
a calendar with zero events, contradicting the fatal-error claim. -/
theorem claim_C8_counterexample :
    fetch_collections (fun _ => ⟨200, []⟩) "someUPRN" = .ok []
    ∧ main "someUPRN" (fun _ => ⟨200, []⟩) 0
        = .ok { prodid := "-//South Glos Bin Collections//EN"
                version := "2.0"
                calscale := "GREGORIAN"
                xwrCalname := "South Glos Bin Collections"
                xwrTimezone := "Europe/London"
                refreshInterval := "P1D"
                xPublishedTtl := "P1D"
                events := [] } :=
  ⟨rfl, rfl⟩

/-- C8 amended: `fetch_collections` raises only on a non-success HTTP
status; an empty record list with a success status is returned unchanged,
and the run then produces (and writes) a calendar with zero events. -/
theorem claim_C8_amended :
    (∀ (http : String → HttpResponse) (uprn : String),
      (http (API_URL uprn)).status < 400 →
      fetch_collections http uprn = .ok (http (API_URL uprn)).json)
    ∧ (∀ (http : String → HttpResponse) (uprn : String) (now : Nat),
      (http (API_URL uprn)).status < 400 → (http (API_URL uprn)).json = [] →
      ∃ cal, main uprn http now = .ok cal ∧ cal.events = [])
    ∧ (∀ (http : String → HttpResponse) (uprn : String) (now : Nat),
      400 ≤ (http (API_URL uprn)).status →
      main uprn http now
        = .error ("HTTP error " ++ toString (http (API_URL uprn)).status)) := by
  refine ⟨?_, ?_, ?_⟩
  · intro http uprn h
    unfold fetch_collections
    rw [if_neg (by omega)]
  · intro http uprn now h hjson
    unfold main fetch_collections
    rw [if_neg (by omega), hjson]
    exact ⟨_, rfl, rfl⟩
  · intro http uprn now h
    unfold main fetch_collections
    rw [if_pos h]

/-- C8 witness: concrete responses exercising the three amended cases. -/
theorem claim_C8_witness :
    fetch_collections (fun _ => ⟨200, [itemFood]⟩) "u" = .ok [itemFood]
    ∧ (∃ cal, main "u" (fun _ => ⟨200, []⟩) 1 = .ok cal ∧ cal.events = [])
    ∧ main "u" (fun _ => ⟨503, []⟩) 0
        = .error ("HTTP error " ++ toString (503 : Nat)) :=
  ⟨claim_C8_amended.1 (fun _ => ⟨200, [itemFood]⟩) "u" (by decide),
   claim_C8_amended.2.1 (fun _ => ⟨200, []⟩) "u" 1 (by decide) rfl,
   claim_C8_amended.2.2 (fun _ => ⟨503, []⟩) "u" 0 (by decide)⟩

/-- C9 counterexample: with the household identifier missing (empty), the
run does not fail before the network call — given a successful response it
completes and produces one event, so no pre-network fatal check exists. -/
theorem claim_C9_counterexample :
    (eventsOf (main "" (fun _ => ⟨200, [itemFood]⟩) 0)).length = 1 := by
  decide

/-- C9 amended: there is no configuration check of the household
identifier: with an empty identifier the HTTP request is still issued (to
the endpoint URL with an empty uprn parameter), and the run's outcome is
decided solely by that response — success builds the calendar from its
records, a non-success status is the only fatal error. -/
theorem claim_C9_amended :
    (∀ (http : String → HttpResponse) (now : Nat),
      (http (API_URL "")).status < 400 →
      main "" http now = build_calendar (http (API_URL "")).json now)
    ∧ (∀ (http : String → HttpResponse) (now : Nat),
      400 ≤ (http (API_URL "")).status →
      main "" http now
        = .error ("HTTP error " ++ toString (http (API_URL "")).status)) := by
  constructor
  · intro http now h
    unfold main fetch_collections
    rw [if_neg (by omega)]
  · intro http now h
    unfold main fetch_collections
    rw [if_pos h]

/-- C9 witness: with an empty identifier the run proceeds to build from
the response, or fails with the response's own HTTP error. -/
theorem claim_C9_witness :
    main "" (fun _ => ⟨200, [itemFood]⟩) 0 = build_calendar [itemFood] 0
    ∧ main "" (fun _ => ⟨404, []⟩) 0
        = .error ("HTTP error " ++ toString (404 : Nat)) :=
  ⟨claim_C9_amended.1 (fun _ => ⟨200, [itemFood]⟩) 0 (by decide),
   claim_C9_amended.2 (fun _ => ⟨404, []⟩) 0 (by decide)⟩

/-- C10: the dedup key uses the service name verbatim while the uid
lowercases it — two records whose service names differ only in case and
share a date produce two distinct descriptors (distinct keys) carrying the
same stable identifier, so uids are not unique across descriptors. -/
theorem claim_C10_uid_collision :
    (eventsOf (build_calendar [itemRefuse, itemREFUSE] 0)).map ekey
        = [("Refuse", d20260223), ("REFUSE", d20260223)]
    ∧ (eventsOf (build_calendar [itemRefuse, itemREFUSE] 0)).map Event.uid
        = ["refuse-2026-02-23@southglos-bins",
           "refuse-2026-02-23@southglos-bins"] := by
  exact ⟨by decide, by decide⟩

end SGC
